import Mathlib

/-!
Shallow embedding of the CRDT library (VersionVec, G-Counter, PN-Counter,
LWW-Register, MV-Register, 2P-Set, star-network sync) from src/crdt.h,
src/crdt.cpp and src/main.cpp, together with theorems settling the frozen
claims about the specification.

Conventions:
- std::unordered_map<std::string, uint64_t> is embedded as an association
  list (List (String × Nat)); first-occurrence lookup models map access.
  Well-formed maps (VVWF) have pairwise distinct keys, which is an invariant
  of the C++ container.
- uint64_t arithmetic wraps modulo U64 = 2^64; the cast of a uint64_t to
  unsigned int reduces modulo U32 = 2^32.
- unordered containers have no observable iteration order; every claim is
  stated in terms of order-insensitive observations (lookups, membership,
  sums, folds whose results are order-independent by the lemmas proved).
-/

namespace Crdt

/-- Wrap modulus of a 64-bit unsigned integer. -/
def U64 : Nat := 2 ^ 64

/-- Wrap modulus of a 32-bit unsigned integer (the type of GCounter::query). -/
def U32 : Nat := 2 ^ 32

/-- Representation of VersionVec::Repr = std::unordered_map<std::string, uint64_t>:
an association list from replica name to 64-bit version value. -/
abbrev VVRepr := List (String × Nat)

/-- The lookup helper from lib.h: find the mapped value for a key, if present. -/
def vvLookup (v : VVRepr) (name : String) : Option Nat :=
  match v with
  | [] => none
  | (k, x) :: rest => if k = name then some x else vvLookup rest name

/-- VersionVec::localVersionForReplica: the stored value, or 0 when absent. -/
def localVersionForReplica (v : VVRepr) (name : String) : Nat :=
  (vvLookup v name).getD 0

/-- The key list of the map (iteration over the container's keys). -/
def vvKeys (v : VVRepr) : List String := v.map Prod.fst

/-- Map write data[name] = val: update the entry in place, or insert it. -/
def vvStore (v : VVRepr) (name : String) (val : Nat) : VVRepr :=
  match v with
  | [] => [(name, val)]
  | (k, x) :: rest => if k = name then (k, val) :: rest else (k, x) :: vvStore rest name val

/-- VersionVec::increment: data[replica_name] += delta (uint64_t wrap; an absent
key is default-constructed to 0 first, so a zero delta still materializes the key). -/
def increment (v : VVRepr) (name : String) (delta : Nat) : VVRepr :=
  vvStore v name ((localVersionForReplica v name + delta) % U64)

/-- VersionVec::max: the uint64_t sum of all stored values (wrapping). -/
def vvMax (v : VVRepr) : Nat :=
  v.foldl (fun sum kv => (sum + kv.2) % U64) 0

/-- The exact (unwrapped) sum of all stored values; vvMax is this modulo U64. -/
def sumValues (v : VVRepr) : Nat :=
  (v.map Prod.snd).sum

/-- Loop body of VersionVec::operator<= : pointwise check with early false,
returning true when all checks pass. -/
def leLoop (v w : VVRepr) : List String → Bool
  | [] => true
  | name :: rest =>
    if localVersionForReplica v name ≤ localVersionForReplica w name then leLoop v w rest
    else false

/-- VersionVec::operator<= over the concatenated key lists of both operands. -/
def vvLe (v w : VVRepr) : Bool :=
  leLoop v w (vvKeys v ++ vvKeys w)

/-- Loop body of VersionVec::operator< : tracks at_least_one_strict_lt and
returns false as soon as some component of v exceeds the one of w. -/
def ltLoop (v w : VVRepr) : List String → Bool → Bool
  | [], flag => flag
  | name :: rest, flag =>
    if localVersionForReplica v name < localVersionForReplica w name then ltLoop v w rest true
    else if localVersionForReplica w name < localVersionForReplica v name then false
    else ltLoop v w rest flag

/-- VersionVec::operator< over the concatenated key lists of both operands. -/
def vvLt (v w : VVRepr) : Bool :=
  ltLoop v w (vvKeys v ++ vvKeys w) false

/-- VersionVec::dominatedBy: *this < other. -/
def dominatedBy (v w : VVRepr) : Bool := vvLt v w

/-- VersionVec::operator== : std::unordered_map equality, i.e. both maps hold
exactly the same key set with equal mapped values (a stored zero is NOT
identified with an absent key). -/
def vvEqC (v w : VVRepr) : Bool :=
  (vvKeys v ++ vvKeys w).all (fun k => vvLookup v k == vvLookup w k)

/-- VersionVec::mergeVersionForReplica: a zero incoming version leaves the map
untouched; otherwise data[name] = max(data[name], other_version). -/
def mergeVersionForReplica (v : VVRepr) (name : String) (otherVersion : Nat) : VVRepr :=
  if otherVersion = 0 then v
  else vvStore v name (max (localVersionForReplica v name) otherVersion)

/-- VersionVec::merge: fold mergeVersionForReplica over the keys of both maps. -/
def vvMerge (v other : VVRepr) : VVRepr :=
  (vvKeys v ++ vvKeys other).foldl
    (fun acc name => mergeVersionForReplica acc name (localVersionForReplica other name)) v

/-- An empty version vector (default-constructed VersionVec). -/
def vvEmpty : VVRepr := []

/-- Well-formedness invariant of the C++ map representation: distinct keys. -/
abbrev VVWF (v : VVRepr) : Prop := (vvKeys v).Nodup

/-- The hash_combine helper from lib.h on size_t (64-bit wrap):
seed XOR (value + 0x9e3779b9 + (seed shl 6) + (seed shr 2)). -/
def hashCombine (seed val : Nat) : Nat :=
  seed ^^^ ((val + 2654435769 + seed * 64 + seed / 4) % U64)

/-- std::hash<VersionVec>: XOR over the entries with non-zero value of the
per-entry combination of the key hash and the value hash; parametrized by the
(implementation-defined) string and integer hash functions. -/
def vvHash (hstr : String → Nat) (hnat : Nat → Nat) (v : VVRepr) : Nat :=
  v.foldl
    (fun ret kv =>
      if kv.2 ≠ 0 then ret ^^^ hashCombine (hashCombine 0 (hstr kv.1)) (hnat kv.2)
      else ret) 0

/-- GCounter::query (the crdt.h VersionVec-backed variant): the uint64_t sum of
entries cast to unsigned int. -/
def gcQuery (v : VVRepr) : Nat := vvMax v % U32

/-- Loop body of GCounter::Payload::operator<= from src/crdt.cpp: identical
pointwise checks, but the function falls through to return FALSE. -/
def gcPayloadLeLoop (x y : VVRepr) : List String → Bool
  | [] => false
  | name :: rest =>
    if localVersionForReplica x name ≤ localVersionForReplica y name then
      gcPayloadLeLoop x y rest
    else false

/-- GCounter::Payload::operator<= from src/crdt.cpp over both key lists. -/
def gcPayloadLe (x y : VVRepr) : Bool :=
  gcPayloadLeLoop x y (vvKeys x ++ vvKeys y)

/-- Maximum of a list of naturals (0 for the empty list); used to express the
per-replica maximum over a family of payloads. -/
def listMax (l : List Nat) : Nat := l.foldr max 0

/-- A slot of StarNetwork<GCounter>: the G-Counter replica state bound to the
slot plus whether the slot is online (_replicas[i] != nullptr); a disconnected
replica keeps its state in the offline set, so the payload is retained. -/
structure StarSlot where
  counter : VVRepr
  online : Bool
deriving DecidableEq

/-- The payload currently held at slot k of the star network, if the slot exists. -/
def slotPayload (net : List StarSlot) (k : Nat) : Option VVRepr :=
  net[k]?.map StarSlot.counter

/-- StarNetwork::syncWithServer (src/main.cpp, and the whole-CRDT variant in
src/crdt.cpp with identical payload semantics): a no-op for the server slot
itself, an offline replica or an offline (or unset) server; otherwise both
payloads are snapshotted, the server snapshot is merged into the client and
the client snapshot into the server. -/
def syncWithServer (net : List StarSlot) (i : Nat) : List StarSlot :=
  if i = 0 then net
  else
    match net[0]?, net[i]? with
    | some server, some replica =>
      if replica.online = false then net
      else if server.online = false then net
      else
        (net.set i { replica with counter := vvMerge replica.counter server.counter }).set 0
          { server with counter := vvMerge server.counter replica.counter }
    | _, _ => net

/-- The payload of a replica after merging in every payload of the family ps
(one full round of receiving everyone's state), starting from its own payload. -/
def mergedAll (p : VVRepr) (ps : List VVRepr) : VVRepr := ps.foldl vvMerge p

/-- An MVRegisterSetNode<T>: the optional value (none embeds _empty = true,
whose stale _value field is unobservable through operator==, hashing and
query) together with the node's version vector. -/
structure MVNode (T : Type) where
  value : Option T
  vv : VVRepr
deriving DecidableEq

/-- MVRegisterSetNode<T>::operator== : empty flags must agree; empty nodes
compare by version vector only, non-empty nodes by value and version vector
(VersionVec::operator== is the raw map equality vvEqC). -/
def nodeEqC {T : Type} [DecidableEq T] (a b : MVNode T) : Bool :=
  match a.value, b.value with
  | none, none => vvEqC a.vv b.vv
  | some x, some y => decide (x = y) && vvEqC a.vv b.vv
  | _, _ => false

/-- Membership in the std::unordered_set of nodes, which identifies nodes via
MVRegisterSetNode::operator==. -/
def mvMem {T : Type} [DecidableEq T] (s : List (MVNode T)) (n : MVNode T) : Bool :=
  s.any (fun e => nodeEqC e n)

/-- std::unordered_set<MVRegisterSetNode>::insert: no-op when an equal node is
already present. -/
def mvInsert {T : Type} [DecidableEq T] (s : List (MVNode T)) (n : MVNode T) : List (MVNode T) :=
  if mvMem s n then s else s ++ [n]

/-- One iteration of the inner loop of MVRegister::Payload::merge for the pair
(i, j): insert i unless i is dominated by j, then insert j unless j is
dominated by i. -/
def mvPairStep {T : Type} [DecidableEq T] (i : MVNode T) (m : List (MVNode T)) (j : MVNode T) :
    List (MVNode T) :=
  let m1 := if dominatedBy i.vv j.vv then m else mvInsert m i
  if dominatedBy j.vv i.vv then m1 else mvInsert m1 j

/-- The inner loop of MVRegister::Payload::merge: run mvPairStep for node i of
self against every node j of other. -/
def mvRowStep {T : Type} [DecidableEq T] (other : List (MVNode T)) (merged : List (MVNode T))
    (i : MVNode T) : List (MVNode T) :=
  other.foldl (mvPairStep i) merged

/-- MVRegister::Payload::merge: the double loop over self × other accumulating
into a freshly created empty set, which then replaces the payload. -/
def mvMerge {T : Type} [DecidableEq T] (s other : List (MVNode T)) : List (MVNode T) :=
  s.foldl (mvRowStep other) []

/-- Modelled from the spec (refinement comparison only): whether node n belongs
to the merge result as the spec states it, i.e. to
`{a ∈ self | ¬∃ b ∈ other : a.VV < b.VV} ∪ {b ∈ other | ¬∃ a ∈ self : b.VV < a.VV}`,
with node identity taken by MVRegisterSetNode::operator==. -/
def specMergeKeeps {T : Type} [DecidableEq T] (n : MVNode T) (A B : List (MVNode T)) : Bool :=
  A.any (fun a => nodeEqC a n && B.all (fun b => !vvLt a.vv b.vv)) ||
  B.any (fun b => nodeEqC b n && A.all (fun a => !vvLt b.vv a.vv))

/-- LWWRegister<T>::Payload: the stored value (retained even while empty, but
unobservable then), the timestamp pair (logical clock, hashed replica name)
and the empty flag. -/
structure LWWPayload (T : Type) where
  value : T
  ts : Nat × Nat
  empty : Bool
deriving DecidableEq

/-- std::pair<uint64_t, size_t> lexicographic operator<= used by
LWWRegister::Payload::operator<=. -/
def pairLe (a b : Nat × Nat) : Bool :=
  if a.1 < b.1 then true
  else if a.1 = b.1 then decide (a.2 ≤ b.2)
  else false

/-- LWWRegister::Payload::assign: overwrite the value only when one is given
(a clear keeps the stale value), stamp with (now, replica hash), set the empty
flag iff no value was given. -/
def lwwAssignP {T : Type} (p : LWWPayload T) (value : Option T) (now : Nat)
    (replicaHash : Nat) : LWWPayload T :=
  { value := value.getD p.value, ts := (now, replicaHash), empty := value.isNone }

/-- LWWRegister::Payload::query lifted to Option (nullptr becomes none). -/
def lwwQueryP {T : Type} (p : LWWPayload T) : Option T :=
  if p.empty then none else some p.value

/-- LWWRegister::Payload::merge: overwrite the whole state with other's when
self's timestamp is lexicographically ≤ other's. -/
def lwwMergeP {T : Type} (p other : LWWPayload T) : LWWPayload T :=
  if pairLe p.ts other.ts then other else p

/-- The default-constructed payload: value-initialized T, timestamp (0, 0),
empty. -/
def lwwInit {T : Type} [Inhabited T] : LWWPayload T :=
  { value := default, ts := (0, 0), empty := true }

/-- One local operation on an LWWRegister replica with hashed name h: both
assign(v) (op = some v) and clear() (op = none) advance the uint64_t clock
_now by 1 (wrapping modulo 2^64) and restamp the payload with it. -/
def lwwStep {T : Type} (h : Nat) (s : Nat × LWWPayload T) (op : Option T) :
    Nat × LWWPayload T :=
  ((s.1 + 1) % U64, lwwAssignP s.2 op ((s.1 + 1) % U64) h)

/-- The clock and payload of a fresh replica with hashed name h after locally
performing the operation sequence ops. -/
def lwwRunSt {T : Type} [Inhabited T] (h : Nat) (ops : List (Option T)) :
    Nat × LWWPayload T :=
  ops.foldl (lwwStep h) (0, lwwInit)

/-- The payload of a fresh replica with hashed name h after locally performing
the operation sequence ops. -/
def lwwRun {T : Type} [Inhabited T] (h : Nat) (ops : List (Option T)) : LWWPayload T :=
  (lwwRunSt h ops).2

/-- Modelled from the spec: the _2PSet<T> class used by src/main.cpp is not
under src/; §4.6 of the spec defines its payload as the pair of grow-only sets
(A = added, R = removed), embedded here as lists observed through membership. -/
structure TwoPSet (T : Type) where
  added : List T
  removed : List T
deriving DecidableEq

/-- Modelled from the spec: 2P-Set add(x): a no-op when x is already removed
(tombstoned), otherwise insert into the added set. -/
def tpAdd {T : Type} [DecidableEq T] (s : TwoPSet T) (x : T) : TwoPSet T :=
  if x ∈ s.removed then s else { s with added := x :: s.added }

/-- Modelled from the spec: 2P-Set remove(x): fails (no mutation) unless x is
currently in A \ R, otherwise insert into the removed set. -/
def tpRemove {T : Type} [DecidableEq T] (s : TwoPSet T) (x : T) : TwoPSet T :=
  if x ∈ s.added ∧ x ∉ s.removed then { s with removed := x :: s.removed } else s

/-- Modelled from the spec: 2P-Set merge: componentwise set union. -/
def tpMerge {T : Type} (s o : TwoPSet T) : TwoPSet T :=
  { added := s.added ++ o.added, removed := s.removed ++ o.removed }

/-- Modelled from the spec: membership in query() = A \ R. -/
def tpQueryMem {T : Type} [DecidableEq T] (s : TwoPSet T) (x : T) : Bool :=
  decide (x ∈ s.added) && !decide (x ∈ s.removed)

/-- An operation a 2P-Set replica can undergo: a local add, a local remove, or
merging in some other replica's payload. -/
inductive TPAction (T : Type) where
  | add (x : T)
  | remove (x : T)
  | mergeWith (o : TwoPSet T)

/-- Apply one action to a 2P-Set payload. -/
def tpApply {T : Type} [DecidableEq T] (s : TwoPSet T) : TPAction T → TwoPSet T
  | TPAction.add x => tpAdd s x
  | TPAction.remove x => tpRemove s x
  | TPAction.mergeWith o => tpMerge s o

/-- Apply a sequence of actions to a 2P-Set payload. -/
def tpRunAll {T : Type} [DecidableEq T] (s : TwoPSet T) (acts : List (TPAction T)) : TwoPSet T :=
  acts.foldl tpApply s

/-- Concrete two-replica LWW scenario for the C3 witness: replica with hash 10
performs assign 5; replica with hash 20 performs assign 7 then clear. -/
def c3Reps : List (Nat × List (Option Nat)) := [(10, [some 5]), (20, [some 7, none])]

theorem vvLookup_eq_none_iff (v : VVRepr) (k : String) :
    vvLookup v k = none ↔ k ∉ vvKeys v := by
  induction v with
  | nil => simp [vvLookup, vvKeys]
  | cons kv rest ih =>
    obtain ⟨a, b⟩ := kv
    simp only [vvLookup, vvKeys, List.map_cons, List.mem_cons]
    by_cases h : a = k
    · simp [h]
    · simp [h, ih, vvKeys, Ne.symm h]

theorem local_eq_zero_of_not_mem {v : VVRepr} {k : String} (h : k ∉ vvKeys v) :
    localVersionForReplica v k = 0 := by
  unfold localVersionForReplica
  rw [(vvLookup_eq_none_iff v k).2 h]
  rfl

theorem local_ne_zero_mem {v : VVRepr} {k : String}
    (h : localVersionForReplica v k ≠ 0) : k ∈ vvKeys v := by
  by_contra hk
  exact h (local_eq_zero_of_not_mem hk)

theorem vvStore_lookup (v : VVRepr) (k : String) (x : Nat) (n : String) :
    vvLookup (vvStore v k x) n = if n = k then some x else vvLookup v n := by
  induction v with
  | nil =>
    by_cases h : n = k
    · simp [vvStore, vvLookup, h]
    · simp [vvStore, vvLookup, h, Ne.symm h]
  | cons kv rest ih =>
    obtain ⟨a, b⟩ := kv
    by_cases hak : a = k
    · subst hak
      by_cases hn : n = a
      · subst hn
        simp [vvStore, vvLookup]
      · simp [vvStore, vvLookup, hn, Ne.symm hn]
    · by_cases hn : n = a
      · subst hn
        simp [vvStore, vvLookup, hak, Ne.symm hak]
      · simp [vvStore, vvLookup, hak, Ne.symm hn, hn, ih]

theorem vvStore_local (v : VVRepr) (k : String) (x : Nat) (n : String) :
    localVersionForReplica (vvStore v k x) n =
      if n = k then x else localVersionForReplica v n := by
  unfold localVersionForReplica
  rw [vvStore_lookup]
  by_cases hn : n = k <;> simp [hn]

theorem vvStore_keys (v : VVRepr) (k : String) (x : Nat) :
    vvKeys (vvStore v k x) =
      if k ∈ vvKeys v then vvKeys v else vvKeys v ++ [k] := by
  induction v with
  | nil => simp [vvStore, vvKeys]
  | cons kv rest ih =>
    obtain ⟨a, b⟩ := kv
    by_cases hak : a = k
    · subst hak
      have hm : a ∈ vvKeys ((a, b) :: rest) := by simp [vvKeys]
      simp [vvStore, vvKeys, hm]
    · have hcons : vvKeys ((a, b) :: rest) = a :: vvKeys rest := rfl
      have hstore : vvKeys (vvStore ((a, b) :: rest) k x) = a :: vvKeys (vvStore rest k x) := by
        simp [vvStore, hak, vvKeys]
      rw [hstore, ih, hcons]
      by_cases hm : k ∈ vvKeys rest
      · have hm2 : k ∈ a :: vvKeys rest := by simp [hm]
        simp [hm, hm2]
      · have hm2 : k ∉ a :: vvKeys rest := by
          simp [hm, Ne.symm hak]
        simp [hm, hm2]

theorem VVWF_vvStore {v : VVRepr} (hwf : VVWF v) (k : String) (x : Nat) :
    VVWF (vvStore v k x) := by
  unfold VVWF at hwf ⊢
  rw [vvStore_keys]
  by_cases hm : k ∈ vvKeys v
  · simpa [hm] using hwf
  · simp only [hm, if_false]
    simpa [List.nodup_append, hm] using hwf

theorem mergeOne_local (v : VVRepr) (k : String) (x : Nat) (n : String) :
    localVersionForReplica (mergeVersionForReplica v k x) n =
      if n = k then max (localVersionForReplica v n) x
      else localVersionForReplica v n := by
  unfold mergeVersionForReplica
  by_cases hx : x = 0
  · subst hx
    by_cases hn : n = k <;> simp [hn]
  · rw [if_neg hx, vvStore_local]
    by_cases hn : n = k <;> simp [hn]

theorem mergeOne_keys_subset (v : VVRepr) (k : String) (x : Nat) :
    ∀ n ∈ vvKeys (mergeVersionForReplica v k x), n ∈ vvKeys v ∨ n = k := by
  intro n hn
  unfold mergeVersionForReplica at hn
  by_cases hx : x = 0
  · simp [hx] at hn
    exact Or.inl hn
  · rw [if_neg hx, vvStore_keys] at hn
    by_cases hm : k ∈ vvKeys v
    · simp only [hm, if_true] at hn
      exact Or.inl hn
    · simp only [hm, if_false, List.mem_append, List.mem_singleton] at hn
      exact hn

theorem VVWF_mergeOne {v : VVRepr} (hwf : VVWF v) (k : String) (x : Nat) :
    VVWF (mergeVersionForReplica v k x) := by
  unfold mergeVersionForReplica
  by_cases hx : x = 0
  · simpa [hx] using hwf
  · rw [if_neg hx]
    exact VVWF_vvStore hwf _ _

theorem vvMergeLoop_local (w : VVRepr) (names : List String) (v : VVRepr) (n : String) :
    localVersionForReplica
        (names.foldl
          (fun acc name => mergeVersionForReplica acc name (localVersionForReplica w name)) v)
        n =
      if n ∈ names then max (localVersionForReplica v n) (localVersionForReplica w n)
      else localVersionForReplica v n := by
  induction names generalizing v with
  | nil => simp
  | cons k rest ih =>
    simp only [List.foldl_cons, List.mem_cons]
    rw [ih, mergeOne_local]
    by_cases hk : n = k
    · subst hk
      by_cases hr : n ∈ rest <;> simp [hr, Nat.max_assoc, Nat.max_self]
    · by_cases hr : n ∈ rest <;> simp [hr, hk]

theorem vvMerge_local (v w : VVRepr) (n : String) :
    localVersionForReplica (vvMerge v w) n =
      max (localVersionForReplica v n) (localVersionForReplica w n) := by
  unfold vvMerge
  rw [vvMergeLoop_local]
  by_cases hm : n ∈ vvKeys v ++ vvKeys w
  · simp [hm]
  · simp only [hm, if_false]
    rw [local_eq_zero_of_not_mem (fun h => hm (List.mem_append.2 (Or.inr h)))]
    simp

theorem vvMergeLoop_keys_subset (w : VVRepr) (names : List String) (v : VVRepr) :
    ∀ n ∈ vvKeys
        (names.foldl
          (fun acc name => mergeVersionForReplica acc name (localVersionForReplica w name)) v),
      n ∈ vvKeys v ∨ n ∈ names := by
  induction names generalizing v with
  | nil => simp
  | cons k rest ih =>
    intro n hn
    simp only [List.foldl_cons] at hn
    rcases ih _ n hn with h | h
    · rcases mergeOne_keys_subset v k _ n h with h2 | h2
      · exact Or.inl h2
      · exact Or.inr (by simp [h2])
    · exact Or.inr (by simp [h])

theorem vvMerge_keys_subset (v w : VVRepr) :
    ∀ n ∈ vvKeys (vvMerge v w), n ∈ vvKeys v ∨ n ∈ vvKeys w := by
  intro n hn
  rcases vvMergeLoop_keys_subset w _ v n hn with h | h
  · exact Or.inl h
  · simpa using h

theorem VVWF_vvMergeLoop (w : VVRepr) (names : List String) {v : VVRepr} (hwf : VVWF v) :
    VVWF
      (names.foldl
        (fun acc name => mergeVersionForReplica acc name (localVersionForReplica w name)) v) := by
  induction names generalizing v with
  | nil => exact hwf
  | cons k rest ih => exact ih (VVWF_mergeOne hwf _ _)

theorem VVWF_vvMerge {v : VVRepr} (hwf : VVWF v) (w : VVRepr) : VVWF (vvMerge v w) :=
  VVWF_vvMergeLoop w _ hwf

theorem increment_local (v : VVRepr) (name : String) (delta : Nat) (n : String) :
    localVersionForReplica (increment v name delta) n =
      if n = name then (localVersionForReplica v name + delta) % U64
      else localVersionForReplica v n := by
  unfold increment
  rw [vvStore_local]

theorem VVWF_increment {v : VVRepr} (hwf : VVWF v) (name : String) (delta : Nat) :
    VVWF (increment v name delta) := VVWF_vvStore hwf _ _

theorem vvMax_foldl (v : VVRepr) (s : Nat) :
    v.foldl (fun sum kv => (sum + kv.2) % U64) (s % U64) = (s + sumValues v) % U64 := by
  induction v generalizing s with
  | nil => simp [sumValues]
  | cons kv rest ih =>
    simp only [List.foldl_cons]
    rw [ih (s % U64 + kv.2)]
    have h2 : s % U64 + kv.2 + sumValues rest ≡ s + kv.2 + sumValues rest [MOD U64] :=
      ((Nat.mod_modEq s U64).add_right kv.2).add_right (sumValues rest)
    have h3 : sumValues (kv :: rest) = kv.2 + sumValues rest := by
      simp [sumValues]
    rw [h3, ← Nat.add_assoc]
    exact h2

theorem vvMax_eq_sum_mod (v : VVRepr) : vvMax v = sumValues v % U64 := by
  have h := vvMax_foldl v 0
  simpa [vvMax] using h

theorem sumValues_eq_sum_keys {v : VVRepr} (hwf : VVWF v) :
    sumValues v = ((vvKeys v).map (localVersionForReplica v)).sum := by
  induction v with
  | nil => rfl
  | cons kv rest ih =>
    obtain ⟨a, b⟩ := kv
    have hwf2 : (a :: vvKeys rest).Nodup := hwf
    rw [List.nodup_cons] at hwf2
    obtain ⟨ha, hrest⟩ := hwf2
    have hla : localVersionForReplica ((a, b) :: rest) a = b := by
      simp [localVersionForReplica, vvLookup]
    have hmap : (vvKeys rest).map (localVersionForReplica ((a, b) :: rest)) =
        (vvKeys rest).map (localVersionForReplica rest) := by
      apply List.map_congr_left
      intro n hn
      have hna : ¬(a = n) := fun h => ha (h ▸ hn)
      simp [localVersionForReplica, vvLookup, hna]
    have hgoal : (vvKeys ((a, b) :: rest)).map (localVersionForReplica ((a, b) :: rest)) =
        localVersionForReplica ((a, b) :: rest) a ::
          (vvKeys rest).map (localVersionForReplica ((a, b) :: rest)) := rfl
    rw [hgoal, hla, hmap, List.sum_cons]
    have hsum : sumValues ((a, b) :: rest) = b + sumValues rest := by simp [sumValues]
    rw [hsum, ih hrest]

theorem sum_map_filter_ne_zero (g : String → Nat) (l : List String) :
    ((l.filter (fun a => g a != 0)).map g).sum = (l.map g).sum := by
  induction l with
  | nil => rfl
  | cons a rest ih =>
    by_cases h : g a = 0
    · simp [List.filter_cons, h, ih]
    · simp [List.filter_cons, h, ih]

theorem sum_map_nodup_congr (g : String → Nat) {l₁ l₂ : List String}
    (d₁ : l₁.Nodup) (d₂ : l₂.Nodup) (hm : ∀ a, a ∈ l₁ ↔ a ∈ l₂) :
    (l₁.map g).sum = (l₂.map g).sum := by
  have hperm : l₁.Perm l₂ := (List.perm_ext_iff_of_nodup d₁ d₂).2 hm
  exact (hperm.map g).sum_eq

theorem sumValues_congr {p q : VVRepr} (hp : VVWF p) (hq : VVWF q)
    (h : ∀ n, localVersionForReplica p n = localVersionForReplica q n) :
    sumValues p = sumValues q := by
  have hf : localVersionForReplica p = localVersionForReplica q := funext h
  rw [sumValues_eq_sum_keys hp, sumValues_eq_sum_keys hq, hf]
  rw [← sum_map_filter_ne_zero (localVersionForReplica q) (vvKeys p),
    ← sum_map_filter_ne_zero (localVersionForReplica q) (vvKeys q)]
  apply sum_map_nodup_congr
  · exact List.Nodup.filter _ hp
  · exact List.Nodup.filter _ hq
  · intro a
    simp only [List.mem_filter, bne_iff_ne, ne_eq]
    constructor
    · rintro ⟨_, hz⟩
      exact ⟨local_ne_zero_mem hz, hz⟩
    · rintro ⟨_, hz⟩
      refine ⟨local_ne_zero_mem ?_, hz⟩
      rw [hf]
      exact hz

theorem leLoop_eq_all (v w : VVRepr) (names : List String) :
    leLoop v w names =
      names.all (fun k => decide (localVersionForReplica v k ≤ localVersionForReplica w k)) := by
  induction names with
  | nil => rfl
  | cons k rest ih =>
    by_cases h : localVersionForReplica v k ≤ localVersionForReplica w k
    · simp [leLoop, h, ih]
    · simp [leLoop, h]

theorem ltLoop_eq (v w : VVRepr) (names : List String) (flag : Bool) :
    ltLoop v w names flag =
      (names.all (fun k => decide (localVersionForReplica v k ≤ localVersionForReplica w k)) &&
        (flag ||
          names.any (fun k => decide (localVersionForReplica v k < localVersionForReplica w k)))) := by
  induction names generalizing flag with
  | nil => simp [ltLoop]
  | cons k rest ih =>
    simp only [ltLoop]
    by_cases h1 : localVersionForReplica v k < localVersionForReplica w k
    · rw [if_pos h1, ih]
      simp [h1, Nat.le_of_lt h1]
    · rw [if_neg h1]
      by_cases h2 : localVersionForReplica w k < localVersionForReplica v k
      · rw [if_pos h2]
        have : ¬(localVersionForReplica v k ≤ localVersionForReplica w k) := Nat.not_le.2 h2
        simp [this]
      · rw [if_neg h2, ih]
        have heq : localVersionForReplica v k = localVersionForReplica w k :=
          Nat.le_antisymm (Nat.not_lt.1 h2) (Nat.not_lt.1 h1)
        simp [heq]

theorem gcPayloadLeLoop_false (x y : VVRepr) (names : List String) :
    gcPayloadLeLoop x y names = false := by
  induction names with
  | nil => rfl
  | cons k rest ih =>
    by_cases h : localVersionForReplica x k ≤ localVersionForReplica y k
    · simp [gcPayloadLeLoop, h, ih]
    · simp [gcPayloadLeLoop, h]

theorem gcQuery_eq_sum_mod (v : VVRepr) : gcQuery v = sumValues v % U32 := by
  unfold gcQuery
  rw [vvMax_eq_sum_mod]
  exact Nat.mod_mod_of_dvd _ (pow_dvd_pow 2 (by norm_num))

theorem listMax_le_of_mem {a : Nat} {l : List Nat} (h : a ∈ l) : a ≤ listMax l := by
  induction l with
  | nil => cases h
  | cons b rest ih =>
    rcases List.mem_cons.1 h with h | h
    · subst h
      exact Nat.le_max_left _ _
    · exact Nat.le_trans (ih h) (Nat.le_max_right _ _)

theorem mergedAll_local (ps : List VVRepr) (p : VVRepr) (n : String) :
    localVersionForReplica (mergedAll p ps) n =
      max (localVersionForReplica p n)
        (listMax (ps.map (fun q => localVersionForReplica q n))) := by
  induction ps generalizing p with
  | nil => simp [mergedAll, listMax]
  | cons q rest ih =>
    have hstep : mergedAll p (q :: rest) = mergedAll (vvMerge p q) rest := rfl
    rw [hstep, ih, vvMerge_local]
    have hl : listMax ((q :: rest).map (fun r => localVersionForReplica r n)) =
        max (localVersionForReplica q n)
          (listMax (rest.map (fun r => localVersionForReplica r n))) := rfl
    rw [hl, Nat.max_assoc]

theorem VVWF_mergedAll (ps : List VVRepr) {p : VVRepr} (hwf : VVWF p) :
    VVWF (mergedAll p ps) := by
  induction ps generalizing p with
  | nil => exact hwf
  | cons q rest ih => exact ih (VVWF_vvMerge hwf q)

theorem mergedAll_keys_subset (ps : List VVRepr) (p : VVRepr) :
    ∀ n ∈ vvKeys (mergedAll p ps), n ∈ vvKeys p ∨ ∃ q ∈ ps, n ∈ vvKeys q := by
  induction ps generalizing p with
  | nil => exact fun n hn => Or.inl hn
  | cons q rest ih =>
    intro n hn
    rcases ih (vvMerge p q) n hn with h | ⟨r, hr, hnr⟩
    · rcases vvMerge_keys_subset p q n h with h2 | h2
      · exact Or.inl h2
      · exact Or.inr ⟨q, by simp, h2⟩
    · exact Or.inr ⟨r, by simp [hr], hnr⟩

theorem sum_keys_to_cover {f : VVRepr} (hwf : VVWF f) {R : List String} (hR : R.Nodup)
    (hsub : ∀ k ∈ vvKeys f, k ∈ R) :
    sumValues f = (R.map (localVersionForReplica f)).sum := by
  rw [sumValues_eq_sum_keys hwf,
    ← sum_map_filter_ne_zero (localVersionForReplica f) (vvKeys f),
    ← sum_map_filter_ne_zero (localVersionForReplica f) R]
  apply sum_map_nodup_congr _ (List.Nodup.filter _ hwf) (List.Nodup.filter _ hR)
  intro a
  simp only [List.mem_filter, bne_iff_ne, ne_eq]
  constructor
  · rintro ⟨hm, hz⟩
    exact ⟨hsub a hm, hz⟩
  · rintro ⟨hm, hz⟩
    exact ⟨local_ne_zero_mem hz, hz⟩

theorem sumValues_vvStore (v : VVRepr) (k : String) (val : Nat) :
    sumValues (vvStore v k val) + localVersionForReplica v k = sumValues v + val := by
  induction v with
  | nil => simp [vvStore, sumValues, localVersionForReplica, vvLookup]
  | cons kv rest ih =>
    obtain ⟨a, b⟩ := kv
    by_cases hak : a = k
    · subst hak
      simp [vvStore, sumValues, localVersionForReplica, vvLookup]
      omega
    · have h1 : vvStore ((a, b) :: rest) k val = (a, b) :: vvStore rest k val := by
        simp [vvStore, hak]
      have h2 : localVersionForReplica ((a, b) :: rest) k = localVersionForReplica rest k := by
        simp [localVersionForReplica, vvLookup, hak]
      have h3 : sumValues ((a, b) :: vvStore rest k val) = b + sumValues (vvStore rest k val) := by
        simp [sumValues]
      have h4 : sumValues ((a, b) :: rest) = b + sumValues rest := by simp [sumValues]
      rw [h1, h2, h3, h4]
      omega

theorem sumValues_mergeOne_le (v : VVRepr) (k : String) (x : Nat) :
    sumValues v ≤ sumValues (mergeVersionForReplica v k x) := by
  unfold mergeVersionForReplica
  by_cases hx : x = 0
  · simp [hx]
  · rw [if_neg hx]
    have h := sumValues_vvStore v k (max (localVersionForReplica v k) x)
    have hle : localVersionForReplica v k ≤ max (localVersionForReplica v k) x :=
      Nat.le_max_left _ _
    omega

theorem sumValues_vvMergeLoop_le (w : VVRepr) (names : List String) (v : VVRepr) :
    sumValues v ≤
      sumValues
        (names.foldl
          (fun acc name => mergeVersionForReplica acc name (localVersionForReplica w name)) v) := by
  induction names generalizing v with
  | nil => exact Nat.le_refl _
  | cons k rest ih =>
    exact Nat.le_trans (sumValues_mergeOne_le v k _) (ih _)

theorem sumValues_vvMerge_le (v w : VVRepr) : sumValues v ≤ sumValues (vvMerge v w) :=
  sumValues_vvMergeLoop_le w _ v

theorem sumValues_increment (v : VVRepr) (name : String) (delta : Nat)
    (hof : localVersionForReplica v name + delta < U64) :
    sumValues (increment v name delta) = sumValues v + delta := by
  unfold increment
  rw [Nat.mod_eq_of_lt hof]
  have h := sumValues_vvStore v name (localVersionForReplica v name + delta)
  omega

/-- Claim C2: VersionVec::operator<= (src/crdt.h) does return true exactly when
every pointwise check over the union of both key sets passes (true on
fall-through), but GCounter::Payload::operator<= (src/crdt.cpp) falls through
to `return false` and therefore returns false on EVERY input — in particular
on inputs where all pointwise checks pass, contradicting the claim for that
variant. -/
theorem c2_le_fallthrough_bug :
    (∀ v w : VVRepr,
        vvLe v w =
          (vvKeys v ++ vvKeys w).all
            (fun k => decide (localVersionForReplica v k ≤ localVersionForReplica w k))) ∧
    (∀ x y : VVRepr, gcPayloadLe x y = false) ∧
    gcPayloadLe [("A", 1)] [("A", 2)] = false := by
  refine ⟨fun v w => leLoop_eq_all v w _, fun x y => gcPayloadLeLoop_false x y _, ?_⟩
  exact gcPayloadLeLoop_false _ _ _

/-- Claim C4: VersionVec::merge is the pointwise maximum over the union of both
key sets (absent keys read as 0); consequently it is observably idempotent,
commutative and associative, and merging with an empty VersionVec leaves every
localVersionForReplica observation unchanged. -/
theorem c4_vv_merge_semilattice :
    (∀ (v w : VVRepr) (n : String),
        localVersionForReplica (vvMerge v w) n =
          max (localVersionForReplica v n) (localVersionForReplica w n)) ∧
    (∀ (v : VVRepr) (n : String),
        localVersionForReplica (vvMerge v v) n = localVersionForReplica v n) ∧
    (∀ (v w : VVRepr) (n : String),
        localVersionForReplica (vvMerge v w) n = localVersionForReplica (vvMerge w v) n) ∧
    (∀ (u v w : VVRepr) (n : String),
        localVersionForReplica (vvMerge (vvMerge u v) w) n =
          localVersionForReplica (vvMerge u (vvMerge v w)) n) ∧
    (∀ (v : VVRepr) (n : String),
        localVersionForReplica (vvMerge v vvEmpty) n = localVersionForReplica v n) := by
  refine ⟨vvMerge_local, ?_, ?_, ?_, ?_⟩
  · intro v n
    rw [vvMerge_local, Nat.max_self]
  · intro v w n
    rw [vvMerge_local, vvMerge_local, Nat.max_comm]
  · intro u v w n
    rw [vvMerge_local, vvMerge_local, vvMerge_local, vvMerge_local, Nat.max_assoc]
  · intro v n
    rw [vvMerge_local]
    have : localVersionForReplica vvEmpty n = 0 := rfl
    rw [this, Nat.max_eq_left (Nat.zero_le _)]

/-- Claim C6: incrementing by 0 is NOT observably neutral: on an empty
VersionVec, increment("A", 0) materializes the key with value 0, and the
implemented operator== (raw map equality) then reports the vector UNEQUAL to
its prior state, even though hashing (which skips zero entries) and every
localVersionForReplica observation are unchanged. This contradicts the claim
(and the spec's MUST) that equality treats zero-valued keys as absent. -/
theorem c6_increment_zero_bug :
    vvEqC (increment vvEmpty "A" 0) vvEmpty = false ∧
    (∀ hstr hnat,
        vvHash hstr hnat (increment vvEmpty "A" 0) = vvHash hstr hnat vvEmpty) ∧
    (∀ n, localVersionForReplica (increment vvEmpty "A" 0) n =
        localVersionForReplica vvEmpty n) := by
  refine ⟨by decide, ?_, ?_⟩
  · intro hstr hnat
    simp [vvHash, increment, vvStore, localVersionForReplica, vvLookup, vvEmpty]
  · intro n
    rw [show increment vvEmpty "A" 0 = [("A", 0)] from by decide]
    by_cases hn : n = "A"
    · subst hn
      simp [localVersionForReplica, vvLookup, vvEmpty]
    · simp [localVersionForReplica, vvLookup, vvEmpty, Ne.symm hn]

/-- Claim C7: VersionVec::operator< agrees with the second formulation (no key
with v[k] > w[k] and at least one key with v[k] < w[k]) on every input, but at
v = {"A" ↦ 0}, w = {} the first formulation computed with the implemented
operator== (v <= w ∧ ¬(v == w)) yields true while operator< yields false, so
the two formulations do NOT agree on vectors containing explicit zero-valued
entries; the defect is operator==, which does not treat a stored zero as an
absent key. -/
theorem c7_lt_formulations_bug :
    (∀ v w : VVRepr,
        vvLt v w =
          ((vvKeys v ++ vvKeys w).all
              (fun k => decide (localVersionForReplica v k ≤ localVersionForReplica w k)) &&
            (vvKeys v ++ vvKeys w).any
              (fun k => decide (localVersionForReplica v k < localVersionForReplica w k)))) ∧
    vvLe [("A", 0)] [] = true ∧
    vvEqC [("A", 0)] [] = false ∧
    vvLt [("A", 0)] [] = false := by
  refine ⟨?_, by decide, by decide, by decide⟩
  intro v w
  rw [vvLt, ltLoop_eq]
  simp

/-- Claim C10: GCounter::query (the VersionVec-backed variant in src/crdt.h)
returns the 64-bit entry sum converted to unsigned int, i.e. the exact entry
sum modulo 2^32; whenever the entries sum to at least 2^32 the returned value
differs from the exact sum. -/
theorem c10_query_truncation (v : VVRepr) :
    gcQuery v = sumValues v % U32 ∧ (U32 ≤ sumValues v → gcQuery v ≠ sumValues v) := by
  refine ⟨gcQuery_eq_sum_mod v, fun hge => ?_⟩
  rw [gcQuery_eq_sum_mod v]
  intro heq
  have hlt : sumValues v % U32 < U32 := Nat.mod_lt _ (by norm_num [U32])
  omega

theorem vvEqC_iff (v w : VVRepr) :
    vvEqC v w = true ↔ ∀ k, vvLookup v k = vvLookup w k := by
  unfold vvEqC
  rw [List.all_eq_true]
  constructor
  · intro h k
    by_cases hk : k ∈ vvKeys v ++ vvKeys w
    · exact beq_iff_eq.1 (h k hk)
    · rw [List.mem_append] at hk
      push_neg at hk
      rw [(vvLookup_eq_none_iff v k).2 hk.1, (vvLookup_eq_none_iff w k).2 hk.2]
  · intro h k _
    exact beq_iff_eq.2 (h k)

theorem vvEqC_trans {u v w : VVRepr} (h1 : vvEqC u v = true) (h2 : vvEqC v w = true) :
    vvEqC u w = true := by
  rw [vvEqC_iff] at h1 h2 ⊢
  exact fun k => (h1 k).trans (h2 k)

theorem nodeEqC_trans {T : Type} [DecidableEq T] {a b c : MVNode T}
    (h1 : nodeEqC a b = true) (h2 : nodeEqC b c = true) : nodeEqC a c = true := by
  unfold nodeEqC at h1 h2 ⊢
  cases ha : a.value <;> cases hb : b.value <;> cases hc : c.value <;>
    simp [ha, hb, hc] at h1 h2 ⊢
  · exact vvEqC_trans h1 h2
  · exact ⟨h1.1.trans h2.1, vvEqC_trans h1.2 h2.2⟩

theorem mvMem_insert {T : Type} [DecidableEq T] (s : List (MVNode T)) (m n : MVNode T) :
    mvMem (mvInsert s m) n = (mvMem s n || nodeEqC m n) := by
  unfold mvInsert
  by_cases h : mvMem s m = true
  · rw [if_pos h]
    by_cases hmn : nodeEqC m n = true
    · rw [hmn, Bool.or_true]
      obtain ⟨e, he, heq⟩ := List.any_eq_true.1 h
      exact List.any_eq_true.2 ⟨e, he, nodeEqC_trans heq hmn⟩
    · rw [Bool.eq_false_iff.2 hmn, Bool.or_false]
  · rw [if_neg h]
    simp [mvMem, List.any_append]

theorem mvPairStep_mem {T : Type} [DecidableEq T] (i : MVNode T) (m : List (MVNode T))
    (j n : MVNode T) :
    mvMem (mvPairStep i m j) n =
      (mvMem m n || (!dominatedBy i.vv j.vv && nodeEqC i n) ||
        (!dominatedBy j.vv i.vv && nodeEqC j n)) := by
  unfold mvPairStep
  by_cases h1 : dominatedBy i.vv j.vv = true
  · by_cases h2 : dominatedBy j.vv i.vv = true
    · simp [h1, h2]
    · rw [Bool.not_eq_true] at h2
      simp [h1, h2, mvMem_insert]
  · rw [Bool.not_eq_true] at h1
    by_cases h2 : dominatedBy j.vv i.vv = true
    · simp [h1, h2, mvMem_insert]
    · rw [Bool.not_eq_true] at h2
      simp [h1, h2, mvMem_insert, Bool.or_assoc]

theorem mvRowStep_mem {T : Type} [DecidableEq T] (i : MVNode T) (js m : List (MVNode T))
    (n : MVNode T) :
    mvMem (js.foldl (mvPairStep i) m) n =
      (mvMem m n || (js.any (fun j => !dominatedBy i.vv j.vv) && nodeEqC i n) ||
        js.any (fun j => !dominatedBy j.vv i.vv && nodeEqC j n)) := by
  induction js generalizing m with
  | nil => simp
  | cons j rest ih =>
    rw [List.foldl_cons, ih, mvPairStep_mem]
    rw [Bool.eq_iff_iff]
    simp only [Bool.or_eq_true, Bool.and_eq_true, List.any_cons]
    tauto

theorem mvMerge_rows_mem {T : Type} [DecidableEq T] (B : List (MVNode T))
    (rows m : List (MVNode T)) (n : MVNode T) :
    mvMem (rows.foldl (mvRowStep B) m) n =
      (mvMem m n ||
        rows.any (fun i => B.any (fun j => !dominatedBy i.vv j.vv) && nodeEqC i n) ||
        rows.any (fun i => B.any (fun j => !dominatedBy j.vv i.vv && nodeEqC j n))) := by
  induction rows generalizing m with
  | nil => simp
  | cons i rest ih =>
    rw [List.foldl_cons, ih]
    have hrow : mvMem (mvRowStep B m i) n =
        (mvMem m n || (B.any (fun j => !dominatedBy i.vv j.vv) && nodeEqC i n) ||
          B.any (fun j => !dominatedBy j.vv i.vv && nodeEqC j n)) := mvRowStep_mem i B m n
    rw [hrow, Bool.eq_iff_iff]
    simp only [Bool.or_eq_true, Bool.and_eq_true, List.any_cons]
    tauto

/-- Counterexample to claim C1: against the spec formula, a node of self with
version vector {"A" ↦ 1} IS kept when other is empty (no b ∈ other dominates
it, vacuously), but MVRegister::Payload::merge with an empty other produces an
empty node set — the double loop never runs — so the claimed node set is wrong
and merging with an empty payload does not leave self unchanged. -/
theorem c1_counterexample :
    specMergeKeeps (MVNode.mk (some 0) [("A", 1)]) [MVNode.mk (some 0) [("A", 1)]]
        ([] : List (MVNode Nat)) = true ∧
    mvMem (mvMerge [MVNode.mk (some 0) [("A", 1)]] ([] : List (MVNode Nat)))
        (MVNode.mk (some 0) [("A", 1)]) = false := by
  constructor
  · rfl
  · rfl

/-- Claim C1 (amended): MVRegister::Payload::merge replaces self's node set
with `{i ∈ self | ∃ j ∈ other, ¬(i.VV < j.VV)} ∪ {j ∈ other | ∃ i ∈ self,
¬(j.VV < i.VV)}` (membership up to MVRegisterSetNode::operator==): a node of
self is kept as soon as at least one node of other fails to strictly dominate
it, and it is discarded only when every node of other strictly dominates it;
in particular merging with an empty other yields the empty node set. -/
theorem c1_mv_merge_amended {T : Type} [DecidableEq T] (A B : List (MVNode T)) (n : MVNode T) :
    mvMem (mvMerge A B) n =
      (A.any (fun a => B.any (fun b => !dominatedBy a.vv b.vv) && nodeEqC a n) ||
        B.any (fun b => A.any (fun a => !dominatedBy b.vv a.vv) && nodeEqC b n)) := by
  unfold mvMerge
  rw [mvMerge_rows_mem]
  have hswap : A.any (fun a => B.any (fun b => !dominatedBy b.vv a.vv && nodeEqC b n)) =
      B.any (fun b => A.any (fun a => !dominatedBy b.vv a.vv) && nodeEqC b n) := by
    rw [Bool.eq_iff_iff]
    simp only [List.any_eq_true, Bool.and_eq_true]
    constructor
    · rintro ⟨a, ha, b, hb, hd, he⟩
      exact ⟨b, hb, ⟨a, ha, hd⟩, he⟩
    · rintro ⟨b, hb, ⟨a, ha, hd⟩, he⟩
      exact ⟨a, ha, b, hb, hd, he⟩
  rw [hswap]
  simp [mvMem]

/-- Counterexample to claim C5 as stated: a single increment can DECREASE
GCounter::query because the uint64_t entry sum is converted to unsigned int.
Incrementing the payload {"A" ↦ 2^32 − 1} by 1 drops the query from
4294967295 to 0; for the same reason the converged query is the sum of
per-replica maxima only modulo 2^32, not exactly. -/
theorem c5_counterexample :
    gcQuery (increment [("A", 4294967295)] "A" 1) = 0 ∧
    gcQuery [("A", 4294967295)] = 4294967295 := by
  constructor
  · rfl
  · rfl

/-- Claim C5 (amended): after a full round of merges every replica's query
equals the sum over the covering replica-name set R of the per-replica maxima,
reduced modulo 2^32 (the unsigned int conversion in query); and query never
decreases across a merge or an increment PROVIDED no wraparound occurs: the
entry sum of the result stays below 2^32 (and, for increment, the incremented
entry stays below 2^64). The underlying entry sum itself never decreases
across a merge. -/
theorem c5_gcounter_amended :
    (∀ ps : List VVRepr, (∀ p ∈ ps, VVWF p) →
      ∀ R : List String, R.Nodup → (∀ p ∈ ps, ∀ k ∈ vvKeys p, k ∈ R) →
      ∀ i, ∀ hi : i < ps.length,
        gcQuery (mergedAll (ps.get ⟨i, hi⟩) ps) =
          (R.map (fun r => listMax (ps.map (fun p => localVersionForReplica p r)))).sum % U32) ∧
    (∀ v w : VVRepr, sumValues v ≤ sumValues (vvMerge v w)) ∧
    (∀ v w : VVRepr, sumValues (vvMerge v w) < U32 → gcQuery v ≤ gcQuery (vvMerge v w)) ∧
    (∀ (v : VVRepr) (name : String) (delta : Nat),
        localVersionForReplica v name + delta < U64 →
        sumValues v ≤ sumValues (increment v name delta)) ∧
    (∀ (v : VVRepr) (name : String) (delta : Nat),
        localVersionForReplica v name + delta < U64 →
        sumValues (increment v name delta) < U32 →
        gcQuery v ≤ gcQuery (increment v name delta)) := by
  refine ⟨?_, sumValues_vvMerge_le, ?_, ?_, ?_⟩
  · intro ps hwf R hR hcov i hi
    have hpmem : ps.get ⟨i, hi⟩ ∈ ps := ps.get_mem i hi
    have hfwf : VVWF (mergedAll (ps.get ⟨i, hi⟩) ps) :=
      VVWF_mergedAll ps (hwf _ hpmem)
    have hflocal : ∀ n, localVersionForReplica (mergedAll (ps.get ⟨i, hi⟩) ps) n =
        listMax (ps.map (fun q => localVersionForReplica q n)) := by
      intro n
      rw [mergedAll_local]
      exact Nat.max_eq_right
        (listMax_le_of_mem (List.mem_map_of_mem (fun q => localVersionForReplica q n) hpmem))
    have hfsub : ∀ k ∈ vvKeys (mergedAll (ps.get ⟨i, hi⟩) ps), k ∈ R := by
      intro k hk
      rcases mergedAll_keys_subset ps _ k hk with h | ⟨q, hq, hkq⟩
      · exact hcov _ hpmem k h
      · exact hcov q hq k hkq
    rw [gcQuery_eq_sum_mod, sum_keys_to_cover hfwf hR hfsub]
    have hmapeq :
        R.map (localVersionForReplica (mergedAll (ps.get ⟨i, hi⟩) ps)) =
          R.map (fun r => listMax (ps.map (fun p => localVersionForReplica p r))) :=
      List.map_congr_left (fun r _ => hflocal r)
    rw [hmapeq]
  · intro v w hc
    have hsv := sumValues_vvMerge_le v w
    rw [gcQuery_eq_sum_mod, gcQuery_eq_sum_mod,
      Nat.mod_eq_of_lt hc, Nat.mod_eq_of_lt (Nat.lt_of_le_of_lt hsv hc)]
    exact hsv
  · intro v name delta hof
    rw [sumValues_increment v name delta hof]
    exact Nat.le_add_right _ _
  · intro v name delta hof hc
    have hsv : sumValues v ≤ sumValues (increment v name delta) := by
      rw [sumValues_increment v name delta hof]
      exact Nat.le_add_right _ _
    rw [gcQuery_eq_sum_mod, gcQuery_eq_sum_mod,
      Nat.mod_eq_of_lt hc, Nat.mod_eq_of_lt (Nat.lt_of_le_of_lt hsv hc)]
    exact hsv

/-- Witness for the amended C5 at a concrete two-replica system: ps has
payloads {"A" ↦ 1} and {"A" ↦ 2, "B" ↦ 1}, the covering name set is
["A", "B"], and each hypothesis is discharged by evaluation. -/
theorem c5_gcounter_amended_witness :
    gcQuery (mergedAll ([[("A", 1)], [("A", 2), ("B", 1)]].get ⟨0, by norm_num⟩)
        [[("A", 1)], [("A", 2), ("B", 1)]]) =
      (["A", "B"].map
          (fun r =>
            listMax ([[("A", 1)], [("A", 2), ("B", 1)]].map
              (fun p => localVersionForReplica p r)))).sum % U32 ∧
    sumValues [("A", 1)] ≤ sumValues (vvMerge [("A", 1)] [("B", 2)]) ∧
    gcQuery [("A", 1)] ≤ gcQuery (vvMerge [("A", 1)] [("B", 2)]) ∧
    sumValues [("A", 1)] ≤ sumValues (increment [("A", 1)] "B" 3) ∧
    gcQuery [("A", 1)] ≤ gcQuery (increment [("A", 1)] "B" 3) := by
  obtain ⟨h1, h2, h3, h4, h5⟩ := c5_gcounter_amended
  refine ⟨h1 _ (by decide) ["A", "B"] (by decide) (by decide) 0 (by decide), h2 _ _,
    h3 _ _ (by decide), h4 _ _ 3 (by decide), h5 _ _ 3 (by decide) (by decide)⟩

/-- Claim C8: syncWithServer(i) with i a non-server slot is a no-op on all
payloads when the replica at slot i or the server at slot 0 is offline;
otherwise it replaces the client payload by the merge of its snapshot with the
server snapshot and the server payload by the merge in the other direction,
after which client.query() equals server.query() (for well-formed payloads). -/
theorem c8_sync_with_server (net : List StarSlot) (i : Nat) (hne : i ≠ 0)
    (server replica : StarSlot)
    (h0 : net[0]? = some server) (hi : net[i]? = some replica) :
    (replica.online = false ∨ server.online = false → syncWithServer net i = net) ∧
    (replica.online = true → server.online = true →
      VVWF replica.counter → VVWF server.counter →
      slotPayload (syncWithServer net i) i = some (vvMerge replica.counter server.counter) ∧
      slotPayload (syncWithServer net i) 0 = some (vvMerge server.counter replica.counter) ∧
      (slotPayload (syncWithServer net i) i).map gcQuery =
        (slotPayload (syncWithServer net i) 0).map gcQuery) := by
  constructor
  · rintro (hoff | hoff)
    · simp [syncWithServer, hne, h0, hi, hoff]
    · by_cases hr : replica.online = false
      · simp [syncWithServer, hne, h0, hi, hr]
      · simp [syncWithServer, hne, h0, hi, hr, hoff]
  · intro hron hson hwr hws
    have hon1 : ¬(replica.online = false) := by simp [hron]
    have hon2 : ¬(server.online = false) := by simp [hson]
    obtain ⟨hilen, -⟩ := List.getElem?_eq_some.1 hi
    obtain ⟨h0len, -⟩ := List.getElem?_eq_some.1 h0
    have hrepr : syncWithServer net i =
        (net.set i { replica with counter := vvMerge replica.counter server.counter }).set 0
          { server with counter := vvMerge server.counter replica.counter } := by
      simp [syncWithServer, hne, h0, hi, hon1, hon2]
    have hgi : slotPayload (syncWithServer net i) i =
        some (vvMerge replica.counter server.counter) := by
      rw [hrepr]
      unfold slotPayload
      rw [List.getElem?_set_ne (fun h => hne h.symm),
        List.getElem?_set_self hilen]
      rfl
    have hg0 : slotPayload (syncWithServer net i) 0 =
        some (vvMerge server.counter replica.counter) := by
      rw [hrepr]
      unfold slotPayload
      rw [List.getElem?_set_self (by simpa using h0len)]
      rfl
    refine ⟨hgi, hg0, ?_⟩
    rw [hgi, hg0]
    have hsum : sumValues (vvMerge replica.counter server.counter) =
        sumValues (vvMerge server.counter replica.counter) := by
      apply sumValues_congr (VVWF_vvMerge hwr _) (VVWF_vvMerge hws _)
      intro n
      rw [vvMerge_local, vvMerge_local, Nat.max_comm]
    simp only [Option.map_some']
    rw [gcQuery_eq_sum_mod, gcQuery_eq_sum_mod, hsum]

/-- Witness for C8 on a concrete two-slot network (online server holding
{"A" ↦ 1}, online client at slot 1 holding {"B" ↦ 2}): syncWithServer merges
both ways and the queries coincide. -/
theorem c8_sync_with_server_witness :
    slotPayload (syncWithServer [⟨[("A", 1)], true⟩, ⟨[("B", 2)], true⟩] 1) 1 =
      some (vvMerge [("B", 2)] [("A", 1)]) ∧
    slotPayload (syncWithServer [⟨[("A", 1)], true⟩, ⟨[("B", 2)], true⟩] 1) 0 =
      some (vvMerge [("A", 1)] [("B", 2)]) ∧
    (slotPayload (syncWithServer [⟨[("A", 1)], true⟩, ⟨[("B", 2)], true⟩] 1) 1).map gcQuery =
      (slotPayload (syncWithServer [⟨[("A", 1)], true⟩, ⟨[("B", 2)], true⟩] 1) 0).map gcQuery := by
  have h := c8_sync_with_server [⟨[("A", 1)], true⟩, ⟨[("B", 2)], true⟩] 1 (by decide)
    ⟨[("A", 1)], true⟩ ⟨[("B", 2)], true⟩ (by decide) (by decide)
  exact h.2 rfl rfl (by decide) (by decide)

/-- Witness for C10 at the concrete payload {"A" ↦ 2^32}: the query is the sum
modulo 2^32 and differs from the exact sum. -/
theorem c10_query_truncation_witness :
    gcQuery [("A", 4294967296)] = sumValues [("A", 4294967296)] % U32 ∧
    gcQuery [("A", 4294967296)] ≠ sumValues [("A", 4294967296)] := by
  obtain ⟨h1, h2⟩ := c10_query_truncation [("A", 4294967296)]
  exact ⟨h1, h2 (by norm_num [sumValues, U32])⟩

theorem pairLe_iff (a b : Nat × Nat) :
    pairLe a b = true ↔ (a.1 < b.1 ∨ (a.1 = b.1 ∧ a.2 ≤ b.2)) := by
  unfold pairLe
  split_ifs with h1 h2
  · simp [h1]
  · simp [h1, h2]
  · simp [h1, h2]

theorem pairLe_zero (x : Nat × Nat) : pairLe (0, 0) x = true := by
  rw [pairLe_iff]
  simp only
  omega

theorem pairLe_antisymm {a b : Nat × Nat} (h1 : pairLe a b = true)
    (h2 : pairLe b a = true) : a = b := by
  rw [pairLe_iff] at h1 h2
  obtain ⟨a1, a2⟩ := a
  obtain ⟨b1, b2⟩ := b
  simp only [Prod.mk.injEq]
  simp only at h1 h2
  omega

theorem lwwFoldl_fst {T : Type} (h : Nat) (ops : List (Option T)) (n : Nat)
    (p : LWWPayload T) :
    (ops.foldl (lwwStep h) (n % U64, p)).1 = (n + ops.length) % U64 := by
  induction ops generalizing n p with
  | nil => simp
  | cons op rest ih =>
    rw [List.foldl_cons]
    have hstep : lwwStep h (n % U64, p) op =
        ((n % U64 + 1) % U64, lwwAssignP p op ((n % U64 + 1) % U64) h) := rfl
    rw [hstep]
    have hmod : (n % U64 + 1) % U64 = (n + 1) % U64 :=
      (Nat.mod_modEq n U64).add_right 1
    rw [hmod, ih (n + 1)]
    have hlen : (op :: rest).length = rest.length + 1 := rfl
    rw [hlen]
    congr 1
    omega

theorem lwwRun_concat {T : Type} [Inhabited T] (h : Nat) (l : List (Option T))
    (op : Option T) :
    lwwRun h (l ++ [op]) = lwwAssignP (lwwRun h l) op ((l.length + 1) % U64) h := by
  unfold lwwRun lwwRunSt
  rw [List.foldl_append, List.foldl_cons, List.foldl_nil]
  have hfst : (List.foldl (lwwStep h) (0, lwwInit) l).1 = l.length % U64 := by
    have h1 := lwwFoldl_fst h l 0 lwwInit
    rw [Nat.zero_mod, Nat.zero_add] at h1
    exact h1
  show lwwAssignP (List.foldl (lwwStep h) (0, lwwInit) l).2 op
      (((List.foldl (lwwStep h) (0, lwwInit) l).1 + 1) % U64) h = _
  rw [hfst]
  have hmod : (l.length % U64 + 1) % U64 = (l.length + 1) % U64 :=
    (Nat.mod_modEq l.length U64).add_right 1
  rw [hmod]

theorem lwwRun_ts {T : Type} [Inhabited T] (h : Nat) {ops : List (Option T)}
    (hne : ops ≠ []) : (lwwRun h ops).ts = (ops.length % U64, h) := by
  rcases List.eq_nil_or_concat ops with rfl | ⟨l, op, rfl⟩
  · exact absurd rfl hne
  · rw [List.concat_eq_append, lwwRun_concat]
    simp [lwwAssignP]

theorem lwwRun_query {T : Type} [Inhabited T] (h : Nat) {ops : List (Option T)}
    (hne : ops ≠ []) : lwwQueryP (lwwRun h ops) = ops.getLast hne := by
  rcases List.eq_nil_or_concat ops with rfl | ⟨l, op, hops⟩
  · exact absurd rfl hne
  · have h1 : lwwQueryP (lwwRun h ops) = op := by
      rw [hops, List.concat_eq_append, lwwRun_concat]
      cases op <;> rfl
    have h2 : ops.getLast? = some op := by
      rw [hops, List.concat_eq_append]
      exact List.getLast?_concat l
    have h3 : ops.getLast hne = op := (List.getLast_eq_iff_getLast_eq_some hne).2 h2
    rw [h1, h3]

theorem foldl_lwwMergeP_eq {T : Type} :
    ∀ (l : List (LWWPayload T)) (a m : LWWPayload T),
      (m = a ∨ m ∈ l) → pairLe a.ts m.ts = true → (∀ x ∈ l, pairLe x.ts m.ts = true) →
      (a.ts = m.ts → a = m) → (∀ x ∈ l, x.ts = m.ts → x = m) →
      l.foldl lwwMergeP a = m := by
  intro l
  induction l with
  | nil =>
    intro a m hm _ _ _ _
    rcases hm with heq | hm
    · exact heq.symm
    · cases hm
  | cons b t ih =>
    intro a m hm hle1 hle hu1 hu
    rw [List.foldl_cons]
    have hmb : lwwMergeP a b = a ∨ lwwMergeP a b = b := by
      unfold lwwMergeP
      split
      · exact Or.inr rfl
      · exact Or.inl rfl
    apply ih (lwwMergeP a b) m
    · rcases hm with heq | hm2
      · left
        unfold lwwMergeP
        split
        · rename_i hab
          have hba : pairLe b.ts m.ts = true := hle b (by simp)
          have hab2 : pairLe m.ts b.ts = true := by
            rw [heq]
            exact hab
          have heqts : b.ts = m.ts := pairLe_antisymm hba hab2
          exact (hu b (by simp) heqts).symm
        · exact heq
      · rcases List.mem_cons.1 hm2 with heq | hmt
        · left
          unfold lwwMergeP
          split
          · exact heq
          · rename_i hab
            have : pairLe a.ts b.ts = true := by
              rw [← heq]
              exact hle1
            exact absurd this hab
        · right
          exact hmt
    · rcases hmb with he | he <;> rw [he]
      · exact hle1
      · exact hle b (by simp)
    · intro x hx
      exact hle x (by simp [hx])
    · rcases hmb with he | he <;> rw [he]
      · exact hu1
      · exact hu b (by simp)
    · intro x hx
      exact hu x (by simp [hx])

/-- Claim C3: with pairwise-distinct replica hashes, after every replica's
locally built payload has been merged into a replica (in any order: qs is any
permutation of the family of payloads), its query equals the last operation of
the replica j owning the operation with the lexicographically greatest
(logical clock, replica hash) timestamp among all assigns and clears — the
k-th operation of a replica carries the actual stored clock (k+1) mod 2^64,
since _now is a wrapping uint64_t; the query is the assigned value, or none if
that operation was a clear. -/
theorem c3_lww_convergence {T : Type} [Inhabited T]
    (reps : List (Nat × List (Option T)))
    (hnodup : (reps.map Prod.fst).Nodup)
    (j : Fin reps.length) (hne : (reps.get j).2 ≠ [])
    (hmax : ∀ i : Fin reps.length, ∀ k : Nat, k < (reps.get i).2.length →
        pairLe ((k + 1) % U64, (reps.get i).1)
          ((reps.get j).2.length % U64, (reps.get j).1) = true)
    (i : Fin reps.length)
    (qs : List (LWWPayload T))
    (hperm : qs.Perm (reps.map (fun r => lwwRun r.1 r.2))) :
    lwwQueryP (qs.foldl lwwMergeP (lwwRun (reps.get i).1 (reps.get i).2)) =
      (reps.get j).2.getLast hne := by
  have hlenj : 0 < (reps.get j).2.length := List.length_pos.2 hne
  have hU2 : 2 ≤ U64 := by norm_num [U64]
  have hjmod : (reps.get j).2.length % U64 ≠ 0 := by
    intro h0
    have hdvd : U64 ∣ (reps.get j).2.length := Nat.dvd_of_mod_eq_zero h0
    have hge : U64 ≤ (reps.get j).2.length := Nat.le_of_dvd hlenj hdvd
    have hk := hmax j (U64 - 2) (by omega)
    have hs1 : U64 - 2 + 1 = U64 - 1 := by omega
    have hs2 : (U64 - 1) % U64 = U64 - 1 := Nat.mod_eq_of_lt (by omega)
    rw [hs1, hs2, h0, pairLe_iff] at hk
    simp only at hk
    omega
  have hinj : ∀ i1 i2 : Fin reps.length, (reps.get i1).1 = (reps.get i2).1 → i1 = i2 := by
    intro i1 i2 hh
    have hl1 : (i1 : Nat) < (reps.map Prod.fst).length := by
      rw [List.length_map]
      exact i1.2
    have hl2 : (i2 : Nat) < (reps.map Prod.fst).length := by
      rw [List.length_map]
      exact i2.2
    have hg1 : (reps.map Prod.fst).get ⟨i1, hl1⟩ = (reps.get i1).1 := by
      simp [List.get_eq_getElem, List.getElem_map]
    have hg2 : (reps.map Prod.fst).get ⟨i2, hl2⟩ = (reps.get i2).1 := by
      simp [List.get_eq_getElem, List.getElem_map]
    have hfin : (⟨i1, hl1⟩ : Fin (reps.map Prod.fst).length) = ⟨i2, hl2⟩ :=
      (List.Nodup.get_inj_iff hnodup).1 (by rw [hg1, hg2]; exact hh)
    have hval : i1.1 = i2.1 := by
      have h5 := congrArg Fin.val hfin
      simpa using h5
    exact Fin.ext hval
  have hmts : (lwwRun (reps.get j).1 (reps.get j).2).ts =
      ((reps.get j).2.length % U64, (reps.get j).1) := lwwRun_ts _ hne
  have hkey : ∀ r ∈ reps,
      pairLe (lwwRun r.1 r.2).ts ((reps.get j).2.length % U64, (reps.get j).1) = true := by
    intro r hr
    obtain ⟨idx, hidx⟩ := List.get_of_mem hr
    by_cases hrne : r.2 = []
    · have hts : (lwwRun r.1 r.2).ts = (0, 0) := by
        rw [hrne]
        rfl
      rw [hts]
      exact pairLe_zero _
    · rw [lwwRun_ts r.1 hrne]
      have hpos : 0 < r.2.length := List.length_pos.2 hrne
      have h := hmax idx (r.2.length - 1) (by rw [hidx]; omega)
      rw [hidx] at h
      have hsucc : r.2.length - 1 + 1 = r.2.length := by omega
      rw [hsucc] at h
      exact h
  have huniq : ∀ r ∈ reps,
      (lwwRun r.1 r.2).ts = ((reps.get j).2.length % U64, (reps.get j).1) →
      lwwRun r.1 r.2 = lwwRun (reps.get j).1 (reps.get j).2 := by
    intro r hr hts
    obtain ⟨idx, hidx⟩ := List.get_of_mem hr
    by_cases hrne : r.2 = []
    · exfalso
      have hts0 : (lwwRun r.1 r.2).ts = (0, 0) := by
        rw [hrne]
        rfl
      rw [hts0] at hts
      have hfst : (0 : Nat) = (reps.get j).2.length % U64 := congrArg Prod.fst hts
      exact hjmod hfst.symm
    · rw [lwwRun_ts r.1 hrne] at hts
      have hhash : r.1 = (reps.get j).1 := congrArg Prod.snd hts
      have hidxj : idx = j := hinj idx j (by rw [hidx]; exact hhash)
      rw [← hidx, hidxj]
  have hmmem : lwwRun (reps.get j).1 (reps.get j).2 ∈ qs := by
    apply hperm.mem_iff.2
    exact List.mem_map_of_mem _ (reps.get_mem j.1 j.2)
  have hfold : qs.foldl lwwMergeP (lwwRun (reps.get i).1 (reps.get i).2) =
      lwwRun (reps.get j).1 (reps.get j).2 := by
    apply foldl_lwwMergeP_eq qs _ _
    · exact Or.inr hmmem
    · rw [hmts]
      exact hkey _ (reps.get_mem i.1 i.2)
    · intro x hx
      obtain ⟨r, hr, hxr⟩ := List.mem_map.1 (hperm.mem_iff.1 hx)
      rw [← hxr, hmts]
      exact hkey r hr
    · intro hts
      exact huniq _ (reps.get_mem i.1 i.2) (by rw [← hmts]; exact hts)
    · intro x hx hts
      obtain ⟨r, hr, hxr⟩ := List.mem_map.1 (hperm.mem_iff.1 hx)
      rw [← hxr]
      exact huniq r hr (by rw [← hmts, hxr]; exact hts)
  rw [hfold]
  exact lwwRun_query _ hne

/-- Witness for C3 on two concrete replicas (hashes 10 and 20): replica 10
assigns 5; replica 20 assigns 7 then clears, owning the greatest timestamp
(2, 20); after replica 10 merges in both payloads its query is none (the
clear wins). -/
theorem c3_lww_convergence_witness :
    lwwQueryP ((c3Reps.map (fun r => lwwRun r.1 r.2)).foldl lwwMergeP
        (lwwRun (c3Reps.get ⟨0, by decide⟩).1 (c3Reps.get ⟨0, by decide⟩).2)) =
      (c3Reps.get ⟨1, by decide⟩).2.getLast (by decide) :=
  c3_lww_convergence c3Reps (by decide) ⟨1, by decide⟩ (by decide) (by decide)
    ⟨0, by decide⟩ _ (List.Perm.refl _)

theorem tpApply_removed_mono {T : Type} [DecidableEq T] (s : TwoPSet T) (a : TPAction T)
    {x : T} (hx : x ∈ s.removed) : x ∈ (tpApply s a).removed := by
  cases a with
  | add y =>
    simp only [tpApply, tpAdd]
    split <;> exact hx
  | remove y =>
    simp only [tpApply, tpRemove]
    split
    · exact List.mem_cons_of_mem _ hx
    · exact hx
  | mergeWith o =>
    simp only [tpApply, tpMerge]
    exact List.mem_append.2 (Or.inl hx)

/-- Claim C9 (spec-modelled, _2PSet is not under src/): once x is in the
removed set of a payload, any sequence of adds (of x or anything else),
removes and merges with arbitrary peer payloads keeps x in the removed set and
keeps x out of query() = A \ R. -/
theorem c9_tombstone {T : Type} [DecidableEq T] (s : TwoPSet T) (x : T)
    (hx : x ∈ s.removed) (acts : List (TPAction T)) :
    x ∈ (tpRunAll s acts).removed ∧ tpQueryMem (tpRunAll s acts) x = false := by
  have hmem : x ∈ (tpRunAll s acts).removed := by
    induction acts generalizing s with
    | nil => exact hx
    | cons a rest ih => exact ih (tpApply s a) (tpApply_removed_mono s a hx)
  refine ⟨hmem, ?_⟩
  simp [tpQueryMem, hmem]

/-- Witness for C9: a payload with "b" removed, then add("b") and a merge with
a peer that re-adds "b"; "b" stays tombstoned and absent from the query. -/
theorem c9_tombstone_witness :
    "b" ∈ (tpRunAll (TwoPSet.mk ["a"] ["b"])
        [TPAction.add "b", TPAction.mergeWith (TwoPSet.mk ["b"] [])]).removed ∧
    tpQueryMem (tpRunAll (TwoPSet.mk ["a"] ["b"])
        [TPAction.add "b", TPAction.mergeWith (TwoPSet.mk ["b"] [])]) "b" = false :=
  c9_tombstone (TwoPSet.mk ["a"] ["b"]) "b" (by decide)
    [TPAction.add "b", TPAction.mergeWith (TwoPSet.mk ["b"] [])]

end Crdt
